import Mathlib

/-!
Shallow embedding of the Foxhound preprocessing transforms
(`src/foxhound/transforms.py`) and proofs of the specified properties.

Sequences of token ids are `List Int`, matrices are `List (List Int)`
(row-major, as numpy prints them), and real-valued arrays use `ℚ` so that
the arithmetic of the source (`x / 127.5 - 1.`) is exact.
-/

/-- The error taxonomy of the design document: every synchronous failure
(empty collections, out-of-range indices) surfaces as `InvalidInputError`. -/
inductive FoxError where
  | invalidInput
deriving DecidableEq, Repr

/-- Python's `max(len(s) for s in seqs)`: for a non-empty list of `ℕ`-valued lengths
the Python maximum coincides with a fold of `Nat.max` started at `0`. -/
def seqMaxLen (seqs : List (List Int)) : Nat :=
  (seqs.map List.length).foldl Nat.max 0

/-- One iteration of the padding loop of `SeqPadded`: prepend
(`placement == "front"`) or append (any other placement) `max_len - len(seq)`
copies of the sentinel `0`. -/
def padOne (placement : String) (maxLen : Nat) (seq : List Int) : List Int :=
  let nPad := maxLen - seq.length
  if placement = "front" then List.replicate nPad 0 ++ seq
  else seq ++ List.replicate nPad 0

/-- Embeds `np.asarray(m).transpose(1, 0)` for a rectangular row-major matrix `m`
whose rows all have length `rowLen`: entry `(i, j)` of the result is entry
`(j, i)` of `m`. -/
def npTranspose (m : List (List Int)) (rowLen : Nat) : List (List Int) :=
  (List.range rowLen).map (fun i => m.map (fun row => row.getD i 0))

/-- Embeds `SeqPadded(seqs, placement)` from `src/foxhound/transforms.py`:
compute the maximum length, pad every sequence with the sentinel `0` at the
chosen end, and transpose to shape `(max_len, n_samples)`.  `max()` of an
empty collection raises, which the design maps to `InvalidInputError`. -/
def SeqPadded (seqs : List (List Int)) (placement : String) :
    Except FoxError (List (List Int)) :=
  match seqs with
  | [] => .error .invalidInput
  | _ :: _ =>
    let maxLen := seqMaxLen seqs
    let seqsPadded := seqs.map (padOne placement maxLen)
    .ok (npTranspose seqsPadded maxLen)

/-- Column `j` of a row-major matrix, read top to bottom. -/
def getCol (m : List (List Int)) (j : Nat) : List Int :=
  m.map (fun row => row.getD j 0)

/-- A deterministic embedding of the process-wide random generator.

Modelled from the spec: the repository's `rng` module (imported by
`src/foxhound/transforms.py` but not itself under `src/`) provides a shared
generator with `randint(a, b)`, a uniform integer drawn from the inclusive
range `[a, b]`; an empty range (`b < a`) is an immediate invalid-input
failure.  The generator is a stream of pre-drawn naturals, consumed one per
call. -/
structure Rng where
  vals : List Nat
deriving DecidableEq, Repr

/-- Modelled from the spec: `py_rng.randint(a, b)` — consume one value from
the stream and map it uniformly into `[a, b]`; fail on an empty range. -/
def randint (a b : Int) (g : Rng) : Except FoxError (Int × Rng) :=
  if b < a then .error .invalidInput
  else .ok (a + ((g.vals.headD 0 : Nat) : Int) % (b - a + 1), Rng.mk g.vals.tail)

/-- The per-sequence loop of `SeqPadded` with the generator state threaded
explicitly through every iteration (the loop body makes no `py_rng` call). -/
def seqPaddedLoop (placement : String) (maxLen : Nat) :
    List (List Int) → Rng → List (List Int) × Rng
  | [], g => ([], g)
  | s :: rest, g =>
    let s' := padOne placement maxLen s
    let (t, g') := seqPaddedLoop placement maxLen rest g
    (s' :: t, g')

/-- Embeds `SeqPadded` with the process-wide generator threaded through explicitly:
the body of `SeqPadded` in `src/foxhound/transforms.py` contains no call to
`py_rng` or `np_rng`. -/
def SeqPaddedRng (seqs : List (List Int)) (placement : String) (g : Rng) :
    Except FoxError (List (List Int)) × Rng :=
  match seqs with
  | [] => (.error .invalidInput, g)
  | _ :: _ =>
    let maxLen := seqMaxLen seqs
    let (padded, g') := seqPaddedLoop placement maxLen seqs g
    (.ok (npTranspose padded maxLen), g')

/-- Embeds `x.split(' ')`: split a text (a list of characters) at every space,
keeping empty fragments, exactly like Python's `str.split(' ')`. -/
def splitSpace : List Char → List (List Char)
  | [] => [[]]
  | c :: rest =>
    match splitSpace rest with
    | [] => [[]]
    | w :: ws => if c = ' ' then [] :: w :: ws else (c :: w) :: ws

/-- Embeds `' '.join(words)`, on texts as lists of characters. -/
def joinSpace : List (List Char) → List Char
  | [] => []
  | [w] => w
  | w :: ws => w ++ ' ' :: joinSpace ws

/-- Step `lens[0] -= 1` of `LenClip`. -/
def decFirst : List Int → List Int
  | [] => []
  | a :: t => (a - 1) :: t

/-- Step `lens[-1] -= 1` of `LenClip`. -/
def decLast : List Int → List Int
  | [] => []
  | [a] => [a - 1]
  | a :: b :: t => a :: decLast (b :: t)

/-- Embeds `np.cumsum` with a running accumulator. -/
def cumsumFrom (acc : Int) : List Int → List Int
  | [] => []
  | a :: t => (acc + a) :: cumsumFrom (acc + a) t

/-- Embeds `np.cumsum(lens).tolist()`. -/
def cumsum (l : List Int) : List Int := cumsumFrom 0 l

/-- The `lens` variable of `LenClip` after its two adjustments:
`[len(word)+1 for word in words]` with `lens[0] -= 1` and `lens[-1] -= 1`. -/
def adjLens (ws : List (List Char)) : List Int :=
  decLast (decFirst (ws.map (fun w => (w.length : Int) + 1)))

/-- The cumulative adjusted lengths `np.cumsum(lens).tolist()` of `LenClip`. -/
def wordCums (ws : List (List Char)) : List Int := cumsum (adjLens ws)

/-- The body of the `for x in X` loop of `LenClip` in
`src/foxhound/transforms.py`: split into words, compute the adjusted
cumulative character counts, keep the words whose count is `< n`, re-join. -/
def lenClipOne (n : Int) (x : List Char) : List Char :=
  let words := splitSpace x
  let cums := wordCums words
  joinSpace (((words.zip cums).filter (fun p => decide (p.2 < n))).map Prod.fst)

/-- Embeds `LenClip(X, n)` from `src/foxhound/transforms.py`. -/
def LenClip (X : List (List Char)) (n : Int) : List (List Char) :=
  X.map (lenClipOne n)

/-- Python's `max` over a list of integers (meaningful for non-empty input). -/
def listMaxInt : List Int → Int
  | [] => 0
  | x :: xs => xs.foldl max x

/-- numpy's wrap-around of a (possibly negative) index into an axis of
length `n`. -/
def pyWrapIdx (n x : Int) : Int := if x < 0 then x + n else x

/-- Embeds `OneHot(X, n, negative_class)` from `src/foxhound/transforms.py`:
`n` defaults to `np.max(X) + 1` (raising on an empty `X`), the output is a
`len(X) × n` matrix filled with `negative_class`, and row `i` receives a `1`
at (wrapped) column `X[i]`; an index outside `[-n, n)` is an immediate
index error, mapped to `InvalidInputError`. -/
def OneHot (X : List Int) (n : Option Int) ( negClass : ℚ) :
    Except FoxError (List (List ℚ)) :=
  match n, X with
  | none, [] => .error .invalidInput
  | _, _ =>
    let nv : Int :=
      match n with
      | some m => m
      | none => listMaxInt X + 1
    if nv < 0 then .error .invalidInput
    else if X.all (fun x => decide (-nv ≤ x) && decide (x < nv)) then
      .ok (X.map (fun x =>
        (List.range nv.toNat).map
          (fun (j : Nat) => if pyWrapIdx nv x = (j : Int) then 1 else negClass)))
    else .error .invalidInput

/-- Embeds `Standardize(X)` from `src/foxhound/transforms.py`: `X / 127.5 - 1.`,
elementwise over exact rationals. -/
def Standardize (X : List ℚ) : List ℚ := X.map (fun x => x / 127.5 - 1)

/-- Modelled from the spec: the helper `one_hot` called by
`StringToCharacterCNNRNNRep` lives in the repository's `utils` module, which
is not under `src/`; per the glossary, a one-hot encoding represents a
categorical integer as the vector with a single `1` at the category's index
and the fill value `0` elsewhere. -/
def one_hot (xs : List Int) (n : Nat) : List (List ℚ) :=
  xs.map (fun x => (List.range n).map (fun (j : Nat) => if x = (j : Int) then 1 else 0))

/-- Embeds `encoder.get(c, 0)` on a character-to-id association table. -/
def encGet (encoder : List (Char × Int)) (c : Char) : Int :=
  match encoder.find? (fun p => p.1 == c) with
  | some p => p.2
  | none => 0

/-- Embeds `np.zeros((r, c))` as `r` all-zero rows of width `c`. -/
def zerosRows (r c : Nat) : List (List ℚ) := List.replicate r (List.replicate c 0)

/-- Python's `max([len(x) for x in X])` for a non-empty list of strings. -/
def strMaxLen (X : List (List Char)) : Nat := (X.map List.length).foldl Nat.max 0

/-- Embeds `StringToCharacterCNNRNNRep(X, encoder)` from
`src/foxhound/transforms.py`: encode each character (`encoder.get(c, 0)`),
one-hot it over `len(encoder) + 1` classes, prepend all-zero rows up to the
maximum string length of the batch, and reshape to
`(len(X), 1, max_len, nc)`.  `max` of an empty batch raises, mapped to
`InvalidInputError`. -/
def StringToCharacterCNNRNNRep (X : List (List Char)) (encoder : List (Char × Int)) :
    Except FoxError (List (List (List (List ℚ)))) :=
  match X with
  | [] => .error .invalidInput
  | _ :: _ =>
    let nc := encoder.length + 1
    let maxLen := strMaxLen X
    .ok (X.map (fun x =>
      [zerosRows (maxLen - x.length) nc ++ one_hot (x.map (encGet encoder)) nc]))

/-- Normalise one Python slice bound against an axis of length `n`:
negative bounds count from the end, and both ends clamp into `[0, n]`. -/
def pyIdx (n : Nat) (i : Int) : Nat :=
  if i < 0 then (i + (n : Int)).toNat else min i.toNat n

/-- Python/numpy slicing `l[a:b]` with step 1. -/
def pySlice {α : Type} (l : List α) (a b : Int) : List α :=
  (l.take (pyIdx l.length b)).drop (pyIdx l.length a)

/-- Embeds `x[r1:r2, c1:c2]` — two-axis slicing of a row-major image. -/
def pySlice2 (x : List (List Int)) (r1 r2 c1 c2 : Int) : List (List Int) :=
  (pySlice x r1 r2).map (fun row => pySlice row c1 c2)

/-- Embeds `int(round(d / 2.))` with Python 2 rounding (half away from zero). -/
def centerOff (d : Int) : Int := if 0 ≤ d then (d + 1) / 2 else (d - 1) / 2

/-- Embeds `CenterCrop(X, pw, ph)` from `src/foxhound/transforms.py`: deterministic
centre offsets `i = int(round((w-pw)/2.))`, `j = int(round((h-ph)/2.))`,
then the slice `x[i:i+pw, j:j+pw]` — `pw` on both axes, as in the source.
No validation is performed; oversized crops fall through to slicing. -/
def CenterCrop (X : List (List (List Int))) (pw ph : Int) : List (List (List Int)) :=
  X.map (fun x =>
    let w : Int := x.length
    let h : Int := (x.headD []).length
    let i := centerOff (w - pw)
    let j := centerOff (h - ph)
    pySlice2 x i (i + pw) j (j + pw))

/-- The loop of `Patch`: draw `i = py_rng.randint(0, w-pw)` and
`j = py_rng.randint(0, h-ph)` from the shared generator, then take
`x[i:i+pw, j:j+pw]` (`pw` on both axes, as in the source); a crop larger
than the image makes `randint` fail on an empty range. -/
def patchLoop (pw ph : Int) : List (List (List Int)) → Rng →
    Except FoxError (List (List (List Int)) × Rng)
  | [], g => .ok ([], g)
  | x :: rest, g =>
    let w : Int := x.length
    let h : Int := (x.headD []).length
    match randint 0 (w - pw) g with
    | .error e => .error e
    | .ok (i, g1) =>
      match randint 0 (h - ph) g1 with
      | .error e => .error e
      | .ok (j, g2) =>
        match patchLoop pw ph rest g2 with
        | .error e => .error e
        | .ok (t, g3) => .ok (pySlice2 x i (i + pw) j (j + pw) :: t, g3)

/-- Embeds `Patch(X, pw, ph)` from `src/foxhound/transforms.py`, with the shared
generator threaded explicitly. -/
def Patch (X : List (List (List Int))) (pw ph : Int) (g : Rng) :
    Except FoxError (List (List (List Int)) × Rng) :=
  patchLoop pw ph X g

example : SeqPadded [[1, 2, 3]] "front" = .ok [[1], [2], [3]] := rfl
example : SeqPadded [[1, 2, 3]] "back" = .ok [[1], [2], [3]] := rfl
example : SeqPadded [[1], [1, 2, 3]] "front" = .ok [[0, 1], [0, 2], [1, 3]] := rfl
example : SeqPadded [[1], [1, 2, 3]] "back" = .ok [[1, 1], [0, 2], [0, 3]] := rfl

theorem foldl_max_init_le (l : List Nat) (a : Nat) : a ≤ l.foldl Nat.max a := by
  induction l generalizing a with
  | nil => exact Nat.le_refl a
  | cons x t ih =>
    exact Nat.le_trans (Nat.le_max_left a x) (ih (Nat.max a x))

theorem le_foldl_max (l : List Nat) (a x : Nat) (hx : x ∈ l) : x ≤ l.foldl Nat.max a := by
  induction l generalizing a with
  | nil => cases hx
  | cons y t ih =>
    rcases List.mem_cons.mp hx with h | h
    · subst h
      exact Nat.le_trans (Nat.le_max_right a x) (foldl_max_init_le t (Nat.max a x))
    · exact ih (Nat.max a y) h

theorem foldl_max_attained (l : List Nat) (a : Nat) :
    l.foldl Nat.max a = a ∨ l.foldl Nat.max a ∈ l := by
  induction l generalizing a with
  | nil => exact Or.inl rfl
  | cons x t ih =>
    rcases ih (Nat.max a x) with h | h
    · rw [List.foldl_cons, h]
      rcases Nat.le_total a x with hle | hle
      · have hx : Nat.max a x = x := Nat.max_eq_right hle
        rw [hx]
        exact Or.inr (List.mem_cons_self x t)
      · have hx : Nat.max a x = a := Nat.max_eq_left hle
        rw [hx]
        exact Or.inl rfl
    · exact Or.inr (List.mem_cons_of_mem x h)

theorem length_le_seqMaxLen (seqs : List (List Int)) (s : List Int) (hs : s ∈ seqs) :
    s.length ≤ seqMaxLen seqs :=
  le_foldl_max _ 0 _ (List.mem_map_of_mem List.length hs)

theorem seqMaxLen_attained (seqs : List (List Int)) (h : seqs ≠ []) :
    ∃ s ∈ seqs, s.length = seqMaxLen seqs := by
  rcases foldl_max_attained (seqs.map List.length) 0 with h0 | hmem
  · cases seqs with
    | nil => exact absurd rfl h
    | cons s t =>
      have hle : s.length ≤ seqMaxLen (s :: t) :=
        length_le_seqMaxLen _ _ (List.mem_cons_self s t)
      have hge : seqMaxLen (s :: t) ≤ s.length := by
        rw [seqMaxLen, h0]; exact Nat.zero_le _
      exact ⟨s, List.mem_cons_self s t, Nat.le_antisymm hle hge⟩
  · rcases List.mem_map.mp hmem with ⟨s, hs, hlen⟩
    exact ⟨s, hs, hlen⟩

theorem padOne_length (placement : String) (maxLen : Nat) (seq : List Int)
    (h : seq.length ≤ maxLen) : (padOne placement maxLen seq).length = maxLen := by
  unfold padOne
  by_cases hp : placement = "front" <;> simp [hp] <;> omega

theorem range_map_getD (r : List Int) (L : Nat) (h : r.length = L) :
    (List.range L).map (fun i => r.getD i 0) = r := by
  apply List.ext_getElem
  · simp [h]
  · intro i h1 h2
    simp only [List.getElem_map, List.getElem_range]
    rw [List.getD_eq_getElem r 0 h2]

theorem getCol_npTranspose (m : List (List Int)) (L : Nat) (j : Nat)
    (hj : j < m.length) (hrect : ∀ r ∈ m, r.length = L) :
    getCol (npTranspose m L) j = m.get ⟨j, hj⟩ := by
  unfold getCol npTranspose
  rw [List.map_map]
  have hstep : ∀ i : Nat,
      ((fun row => List.getD row j 0) ∘ fun i => m.map fun row => row.getD i 0) i =
      (m.get ⟨j, hj⟩).getD i 0 := by
    intro i
    simp only [Function.comp_apply]
    rw [List.getD_eq_getElem _ 0 (by simpa using hj), List.getElem_map]
    rfl
  rw [List.map_congr_left (fun i _ => hstep i)]
  exact range_map_getD _ L (hrect _ (List.get_mem m j hj))

theorem npTranspose_length (m : List (List Int)) (L : Nat) :
    (npTranspose m L).length = L := by
  simp [npTranspose]

theorem npTranspose_row_length (m : List (List Int)) (L : Nat) :
    ∀ row ∈ npTranspose m L, row.length = m.length := by
  intro row hrow
  rcases List.mem_map.mp hrow with ⟨i, _, hrow⟩
  simp [← hrow]

theorem seqPadded_eq_ok (seqs : List (List Int)) (placement : String) (h : seqs ≠ []) :
    SeqPadded seqs placement =
      .ok (npTranspose (seqs.map (padOne placement (seqMaxLen seqs))) (seqMaxLen seqs)) := by
  cases seqs with
  | nil => exact absurd rfl h
  | cons s t => rfl

theorem getCol_seqPadded (seqs : List (List Int)) (placement : String) (h : seqs ≠ [])
    (out : List (List Int)) (hout : SeqPadded seqs placement = .ok out)
    (j : Nat) (hj : j < seqs.length) :
    getCol out j = padOne placement (seqMaxLen seqs) (seqs.get ⟨j, hj⟩) := by
  rw [seqPadded_eq_ok seqs placement h] at hout
  have hout' : out = npTranspose (seqs.map (padOne placement (seqMaxLen seqs)))
      (seqMaxLen seqs) := by
    cases hout; rfl
  subst hout'
  have hj' : j < (seqs.map (padOne placement (seqMaxLen seqs))).length := by simpa using hj
  rw [getCol_npTranspose _ (seqMaxLen seqs) j hj' ?rect]
  case rect =>
    intro r hr
    rcases List.mem_map.mp hr with ⟨s, hs, hr⟩
    rw [← hr]
    exact padOne_length _ _ _ (length_le_seqMaxLen seqs s hs)
  rw [List.get_map]

theorem padOne_of_length_eq (placement : String) (L : Nat) (s : List Int)
    (h : s.length = L) : padOne placement L s = s := by
  unfold padOne
  rw [h, Nat.sub_self]
  by_cases hp : placement = "front" <;> simp [hp]

theorem padOne_front (L : Nat) (s : List Int) :
    padOne "front" L s = List.replicate (L - s.length) 0 ++ s := by
  simp [padOne]

theorem padOne_back (L : Nat) (s : List Int) :
    padOne "back" L s = s ++ List.replicate (L - s.length) 0 := by
  simp [padOne]

/-- Claim C1: for every non-empty list of integer sequences and either
placement, `SeqPadded` returns a dense 2-D integer array with exactly
`max(len(s) for s in sequences)` rows and `len(sequences)` columns, a
sequence of maximal length is reproduced exactly with no padding, and the
column order matches the input order (column `j` is sequence `j`, padded). -/
theorem seqPadded_shape (seqs : List (List Int)) (placement : String) (h : seqs ≠ []) :
    ∃ out, SeqPadded seqs placement = .ok out ∧
      out.length = seqMaxLen seqs ∧
      (∀ s ∈ seqs, s.length ≤ seqMaxLen seqs) ∧
      (∃ s ∈ seqs, s.length = seqMaxLen seqs) ∧
      (∀ row ∈ out, row.length = seqs.length) ∧
      (∀ j (hj : j < seqs.length),
        getCol out j = padOne placement (seqMaxLen seqs) (seqs.get ⟨j, hj⟩) ∧
        ((seqs.get ⟨j, hj⟩).length = seqMaxLen seqs → getCol out j = seqs.get ⟨j, hj⟩)) := by
  refine ⟨npTranspose (seqs.map (padOne placement (seqMaxLen seqs))) (seqMaxLen seqs),
    seqPadded_eq_ok seqs placement h, ?_, ?_, ?_, ?_, ?_⟩
  · exact npTranspose_length _ _
  · exact fun s hs => length_le_seqMaxLen seqs s hs
  · exact seqMaxLen_attained seqs h
  · intro row hrow
    rw [npTranspose_row_length _ _ row hrow]
    exact List.length_map seqs _
  · intro j hj
    have hcol := getCol_seqPadded seqs placement h _ (seqPadded_eq_ok seqs placement h) j hj
    refine ⟨hcol, fun hfull => ?_⟩
    rw [hcol, padOne_of_length_eq _ _ _ hfull]

theorem seqPadded_shape_witness :
    ([[1], [1, 2, 3]] : List (List Int)) ≠ [] ∧
    (∃ out, SeqPadded [[1], [1, 2, 3]] "front" = .ok out ∧
      out.length = seqMaxLen [[1], [1, 2, 3]] ∧
      (∀ s ∈ ([[1], [1, 2, 3]] : List (List Int)), s.length ≤ seqMaxLen [[1], [1, 2, 3]]) ∧
      (∃ s ∈ ([[1], [1, 2, 3]] : List (List Int)), s.length = seqMaxLen [[1], [1, 2, 3]]) ∧
      (∀ row ∈ out, row.length = ([[1], [1, 2, 3]] : List (List Int)).length) ∧
      (∀ j (hj : j < ([[1], [1, 2, 3]] : List (List Int)).length),
        getCol out j = padOne "front" (seqMaxLen [[1], [1, 2, 3]])
          (([[1], [1, 2, 3]] : List (List Int)).get ⟨j, hj⟩) ∧
        ((([[1], [1, 2, 3]] : List (List Int)).get ⟨j, hj⟩).length = seqMaxLen [[1], [1, 2, 3]] →
          getCol out j = ([[1], [1, 2, 3]] : List (List Int)).get ⟨j, hj⟩))) :=
  ⟨by decide, seqPadded_shape [[1], [1, 2, 3]] "front" (by decide)⟩

theorem dropWhile_replicate_zero_append (n : Nat) (s : List Int) (hs : ∀ t ∈ s, t ≠ 0) :
    (List.replicate n 0 ++ s).dropWhile (fun t => t == 0) = s := by
  induction n with
  | zero =>
    cases s with
    | nil => rfl
    | cons a t =>
      have ha : a ≠ 0 := hs a (List.mem_cons_self a t)
      simp [List.dropWhile_cons, ha]
  | succ k ih =>
    simp only [List.replicate_succ, List.cons_append, List.dropWhile_cons]
    simpa using ih

theorem takeWhile_replicate_zero (n : Nat) :
    (List.replicate n (0 : Int)).takeWhile (fun t => !(t == 0)) = [] := by
  cases n with
  | zero => rfl
  | succ k => simp [List.replicate_succ, List.takeWhile_cons]

theorem takeWhile_append_replicate_zero (n : Nat) :
    ∀ s : List Int, (∀ t ∈ s, t ≠ 0) →
      (s ++ List.replicate n 0).takeWhile (fun t => !(t == 0)) = s := by
  intro s
  induction s with
  | nil =>
    intro _
    simpa using takeWhile_replicate_zero n
  | cons a t ih =>
    intro hs
    have ha : a ≠ 0 := hs a (List.mem_cons_self a t)
    have ht : ∀ x ∈ t, x ≠ 0 := fun x hx => hs x (List.mem_cons_of_mem a hx)
    simp [List.takeWhile_cons, ha, ih ht]

/-- Claim C2: in each column of the `SeqPadded` output the original tokens
appear contiguously and in order; the sentinel `0` is only prepended (front
placement) or appended (back placement), never interleaved, so the
non-sentinel run of a column reproduces the original sequence exactly. -/
theorem seqPadded_no_interior_sentinel (seqs : List (List Int))
    (h : seqs ≠ []) (hnz : ∀ s ∈ seqs, ∀ t ∈ s, t ≠ 0) :
    ∀ j (hj : j < seqs.length), ∃ outF outB,
      SeqPadded seqs "front" = .ok outF ∧ SeqPadded seqs "back" = .ok outB ∧
      getCol outF j =
        List.replicate (seqMaxLen seqs - (seqs.get ⟨j, hj⟩).length) 0 ++ seqs.get ⟨j, hj⟩ ∧
      getCol outB j =
        seqs.get ⟨j, hj⟩ ++ List.replicate (seqMaxLen seqs - (seqs.get ⟨j, hj⟩).length) 0 ∧
      (getCol outF j).dropWhile (fun t => t == 0) = seqs.get ⟨j, hj⟩ ∧
      (getCol outB j).takeWhile (fun t => !(t == 0)) = seqs.get ⟨j, hj⟩ := by
  intro j hj
  have hnzj : ∀ t ∈ seqs.get ⟨j, hj⟩, t ≠ 0 := hnz _ (List.get_mem seqs j hj)
  have hF := getCol_seqPadded seqs "front" h _ (seqPadded_eq_ok seqs "front" h) j hj
  have hB := getCol_seqPadded seqs "back" h _ (seqPadded_eq_ok seqs "back" h) j hj
  rw [padOne_front] at hF
  rw [padOne_back] at hB
  refine ⟨_, _, seqPadded_eq_ok seqs "front" h, seqPadded_eq_ok seqs "back" h,
    hF, hB, ?_, ?_⟩
  · rw [hF]
    exact dropWhile_replicate_zero_append _ _ hnzj
  · rw [hB]
    exact takeWhile_append_replicate_zero _ _ hnzj

theorem seqPadded_no_interior_sentinel_witness :
    ([[5], [1, 2, 3]] : List (List Int)) ≠ [] ∧
    (∀ s ∈ ([[5], [1, 2, 3]] : List (List Int)), ∀ t ∈ s, t ≠ 0) ∧
    (∀ j (hj : j < ([[5], [1, 2, 3]] : List (List Int)).length), ∃ outF outB,
      SeqPadded [[5], [1, 2, 3]] "front" = .ok outF ∧
      SeqPadded [[5], [1, 2, 3]] "back" = .ok outB ∧
      getCol outF j = List.replicate (seqMaxLen [[5], [1, 2, 3]] -
        (([[5], [1, 2, 3]] : List (List Int)).get ⟨j, hj⟩).length) 0 ++
        ([[5], [1, 2, 3]] : List (List Int)).get ⟨j, hj⟩ ∧
      getCol outB j = ([[5], [1, 2, 3]] : List (List Int)).get ⟨j, hj⟩ ++
        List.replicate (seqMaxLen [[5], [1, 2, 3]] -
          (([[5], [1, 2, 3]] : List (List Int)).get ⟨j, hj⟩).length) 0 ∧
      (getCol outF j).dropWhile (fun t => t == 0) =
        ([[5], [1, 2, 3]] : List (List Int)).get ⟨j, hj⟩ ∧
      (getCol outB j).takeWhile (fun t => !(t == 0)) =
        ([[5], [1, 2, 3]] : List (List Int)).get ⟨j, hj⟩) :=
  ⟨by decide, by decide,
    seqPadded_no_interior_sentinel [[5], [1, 2, 3]] (by decide) (by decide)⟩

/-- Claim C3: `SeqPadded` on an empty list of sequences fails with
`InvalidInputError` (`max()` of an empty collection), and with no other
error kind, for every placement string. -/
theorem seqPadded_empty_invalid (placement : String) :
    SeqPadded [] placement = .error .invalidInput := rfl

theorem seqPaddedLoop_spec (placement : String) (maxLen : Nat) :
    ∀ (l : List (List Int)) (g : Rng),
      seqPaddedLoop placement maxLen l g = (l.map (padOne placement maxLen), g) := by
  intro l
  induction l with
  | nil => intro g; rfl
  | cons s rest ih =>
    intro g
    simp [seqPaddedLoop, ih g]

/-- Claim C4: `SeqPadded` is pure and deterministic — it leaves the shared
random generator untouched, its value does not depend on the generator, and
two calls with equal sequences and equal placement return equal results. -/
theorem seqPadded_pure (seqs : List (List Int)) (placement : String) (g : Rng) :
    (SeqPaddedRng seqs placement g).2 = g ∧
    (SeqPaddedRng seqs placement g).1 = SeqPadded seqs placement ∧
    ∀ (seqs2 : List (List Int)) (placement2 : String),
      seqs = seqs2 → placement = placement2 →
      SeqPadded seqs placement = SeqPadded seqs2 placement2 := by
  refine ⟨?_, ?_, ?_⟩
  · cases seqs with
    | nil => rfl
    | cons s t => simp [SeqPaddedRng, seqPaddedLoop_spec]
  · cases seqs with
    | nil => rfl
    | cons s t => simp [SeqPaddedRng, seqPaddedLoop_spec, SeqPadded]
  · intro seqs2 placement2 h1 h2
    rw [h1, h2]

theorem seqPadded_pure_witness :
    ([[1]] : List (List Int)) = [[1]] ∧ "front" = "front" ∧
    (SeqPaddedRng [[1]] "front" (Rng.mk [5])).2 = Rng.mk [5] ∧
    SeqPadded [[1]] "front" = SeqPadded [[1]] "front" :=
  ⟨rfl, rfl, (seqPadded_pure [[1]] "front" (Rng.mk [5])).1,
    (seqPadded_pure [[1]] "front" (Rng.mk [5])).2.2 [[1]] "front" rfl rfl⟩

example : lenClipOne 3 ['a', ' ', 'b'] = ['a', ' ', 'b'] := rfl
example : lenClipOne 2 ['a', ' ', 'b'] = ['a'] := rfl
example : lenClipOne 2 ['a', 'b'] = ['a', 'b'] := rfl
example : lenClipOne 1 ['a', 'b'] = [] := rfl
example : lenClipOne 12
    ['h','e','l','l','o',' ','w','o','r','l','d',' ','f','o','o'] =
    ['h','e','l','l','o',' ','w','o','r','l','d'] := rfl

theorem cumsumFrom_length (acc : Int) (l : List Int) :
    (cumsumFrom acc l).length = l.length := by
  induction l generalizing acc with
  | nil => rfl
  | cons a t ih => simp [cumsumFrom, ih]

theorem cumsumFrom_add (b : Int) :
    ∀ (l : List Int) (c : Int),
      cumsumFrom (b + c) l = (cumsumFrom c l).map (fun v => b + v) := by
  intro l
  induction l with
  | nil => intro c; rfl
  | cons a t ih =>
    intro c
    simp only [cumsumFrom, List.map_cons, Int.add_assoc]
    rw [ih (c + a)]

theorem cumsumFrom_eq_map (acc : Int) (l : List Int) :
    cumsumFrom acc l = (cumsum l).map (fun v => acc + v) := by
  have h := cumsumFrom_add acc l 0
  rw [Int.add_zero] at h
  exact h

theorem cumsum_decFirst (l : List Int) :
    cumsum (decFirst l) = (cumsum l).map (fun v => v - 1) := by
  cases l with
  | nil => rfl
  | cons a t =>
    show cumsumFrom 0 ((a - 1) :: t) = ((cumsumFrom 0 (a :: t)).map fun v => v - 1)
    simp only [cumsumFrom, List.map_cons]
    have h1 : cumsumFrom (0 + (a - 1)) t = (cumsumFrom (0 + a) t).map (fun v => (-1) + v) := by
      have := cumsumFrom_add (-1) t (0 + a)
      rw [← this]
      ring_nf
    rw [h1]
    congr 1
    · ring
    · apply List.map_congr_left
      intro v _
      ring

theorem cumsumFrom_decLast : ∀ (l : List Int) (acc : Int),
    cumsumFrom acc (decLast l) = decLast (cumsumFrom acc l) := by
  intro l
  induction l with
  | nil => intro acc; rfl
  | cons a t ih =>
    intro acc
    cases t with
    | nil =>
      show cumsumFrom acc [a - 1] = decLast [acc + a]
      simp only [cumsumFrom, decLast]
      congr 1
      ring
    | cons b t2 =>
      show cumsumFrom acc (a :: decLast (b :: t2)) =
        decLast ((acc + a) :: cumsumFrom (acc + a) (b :: t2))
      simp only [cumsumFrom]
      rw [ih (acc + a)]
      rfl

theorem decFirst_length (l : List Int) : (decFirst l).length = l.length := by
  cases l <;> rfl

theorem decLast_length : ∀ l : List Int, (decLast l).length = l.length := by
  intro l
  induction l with
  | nil => rfl
  | cons a t ih =>
    cases t with
    | nil => rfl
    | cons b t2 => simpa [decLast] using ih

theorem getD_map_of_lt (g : Int → Int) (l : List Int) (i : Nat) (h : i < l.length)
    (d d' : Int) : (l.map g).getD i d = g (l.getD i d') := by
  rw [List.getD_eq_getElem _ d (by simpa using h), List.getD_eq_getElem _ d' h,
    List.getElem_map]

theorem joinSpace_cons_of_ne_nil (w : List Char) (r : List (List Char)) (h : r ≠ []) :
    joinSpace (w :: r) = w ++ ' ' :: joinSpace r := by
  cases r with
  | nil => exact absurd rfl h
  | cons y ys => rfl

theorem take_ne_nil_of_ne_nil (t : List (List Char)) (k : Nat) (h : t ≠ []) :
    t.take (k + 1) ≠ [] := by
  cases t with
  | nil => exact absurd rfl h
  | cons y ys => simp [List.take]

theorem cumsum_length (l : List Int) : (cumsum l).length = l.length :=
  cumsumFrom_length 0 l

theorem cumsum_len_getD : ∀ (ws : List (List Char)) (i : Nat), i < ws.length →
    (cumsum (ws.map (fun w => (w.length : Int) + 1))).getD i 0 =
      ((joinSpace (ws.take (i + 1))).length : Int) + 1 := by
  intro ws
  induction ws with
  | nil => intro i hi; cases hi
  | cons w t ih =>
    intro i hi
    cases i with
    | zero =>
      rw [show (w :: t).take 1 = [w] from rfl, show joinSpace [w] = w from rfl]
      show (0 : Int) + ((w.length : Int) + 1) = (w.length : Int) + 1
      ring
    | succ i' =>
      have hi' : i' < t.length := Nat.lt_of_succ_lt_succ hi
      have ht : t ≠ [] :=
        List.ne_nil_of_length_pos (Nat.lt_of_le_of_lt (Nat.zero_le i') hi')
      have hlen : i' < (cumsum (t.map fun w => (w.length : Int) + 1)).length := by
        rw [cumsum_length, List.length_map]
        exact hi'
      have step1 : (cumsum ((w :: t).map fun w => (w.length : Int) + 1)).getD (i' + 1) 0 =
          (cumsumFrom (0 + ((w.length : Int) + 1))
            (t.map fun w => (w.length : Int) + 1)).getD i' 0 := rfl
      rw [step1, cumsumFrom_eq_map, getD_map_of_lt _ _ i' hlen 0 0, ih i' hi']
      rw [show (w :: t).take (i' + 1 + 1) = w :: t.take (i' + 1) from rfl]
      rw [joinSpace_cons_of_ne_nil w _ (take_ne_nil_of_ne_nil t i' ht)]
      simp only [List.length_append, List.length_cons]
      push_cast
      ring

theorem decLast_getD_ge : ∀ (l : List Int) (i : Nat), i < l.length →
    l.getD i 0 - 1 ≤ (decLast l).getD i 0 := by
  intro l
  induction l with
  | nil => intro i hi; cases hi
  | cons a t ih =>
    intro i hi
    cases t with
    | nil =>
      cases i with
      | zero => show a - 1 ≤ a - 1; exact Int.le_refl _
      | succ j => simp at hi
    | cons b t2 =>
      cases i with
      | zero => show a - 1 ≤ a; omega
      | succ j =>
        have hj : j < (b :: t2).length := by simpa using Nat.lt_of_succ_lt_succ hi
        show (b :: t2).getD j 0 - 1 ≤ (decLast (b :: t2)).getD j 0
        exact ih j hj

theorem cumsumFrom_pairwise_ge : ∀ (l : List Int), (∀ a ∈ l, 0 ≤ a) → ∀ (acc : Int),
    List.Pairwise (· ≤ ·) (cumsumFrom acc l) ∧ ∀ v ∈ cumsumFrom acc l, acc ≤ v := by
  intro l
  induction l with
  | nil => intro _ acc; exact ⟨List.Pairwise.nil, by intro v hv; cases hv⟩
  | cons a t ih =>
    intro hl acc
    have ha : 0 ≤ a := hl a (List.mem_cons_self a t)
    have ht : ∀ x ∈ t, 0 ≤ x := fun x hx => hl x (List.mem_cons_of_mem a hx)
    obtain ⟨hp, hge⟩ := ih ht (acc + a)
    constructor
    · exact List.pairwise_cons.mpr ⟨fun v hv => hge v hv, hp⟩
    · intro v hv
      rcases List.mem_cons.mp hv with h | h
      · omega
      · have := hge v h; omega

theorem decLast_nonneg (l : List Int) (h : ∀ a ∈ l, 1 ≤ a) :
    ∀ b ∈ decLast l, 0 ≤ b := by
  induction l with
  | nil => intro b hb; cases hb
  | cons a t ih =>
    cases t with
    | nil =>
      intro b hb
      rcases List.mem_singleton.mp hb with rfl
      have := h a (List.mem_cons_self a [])
      omega
    | cons c t2 =>
      intro b hb
      rcases List.mem_cons.mp hb with rfl | hb2
      · have := h b (List.mem_cons_self b (c :: t2))
        omega
      · exact ih (fun x hx => h x (List.mem_cons_of_mem a hx)) b hb2

theorem filter_zip_take (n : Int) : ∀ (ws : List (List Char)) (cs : List Int),
    List.Pairwise (· ≤ ·) cs →
    ∃ k, k ≤ ws.length ∧ k ≤ cs.length ∧
      (ws.zip cs).filter (fun p => decide (p.2 < n)) = (ws.zip cs).take k ∧
      ∀ p ∈ (ws.zip cs).take k, p.2 < n := by
  intro ws
  induction ws with
  | nil =>
    intro cs _
    exact ⟨0, Nat.zero_le _, Nat.zero_le _, by simp, by simp⟩
  | cons w ws' ih =>
    intro cs hp
    cases cs with
    | nil => exact ⟨0, Nat.zero_le _, Nat.zero_le _, by simp, by simp⟩
    | cons c cs' =>
      obtain ⟨hc, hp'⟩ := List.pairwise_cons.mp hp
      by_cases hcn : c < n
      · obtain ⟨k, hk1, hk2, heq, hmem⟩ := ih cs' hp'
        refine ⟨k + 1, Nat.succ_le_succ hk1, Nat.succ_le_succ hk2, ?_, ?_⟩
        · rw [List.zip_cons_cons, List.filter_cons, List.take_succ_cons]
          simp only [decide_eq_true_eq, hcn, if_true]
          rw [heq]
        · intro p hpmem
          rw [List.zip_cons_cons, List.take_succ_cons] at hpmem
          rcases List.mem_cons.mp hpmem with rfl | h2
          · exact hcn
          · exact hmem p h2
      · refine ⟨0, Nat.zero_le _, Nat.zero_le _, ?_, by simp⟩
        rw [List.zip_cons_cons, List.filter_cons, if_neg (by simp [hcn])]
        rw [show ((w, c) :: ws'.zip cs').take 0 = [] from rfl]
        apply List.filter_eq_nil_iff.mpr
        intro p hp2
        simp only [decide_eq_true_eq]
        have hsnd : p.2 ∈ cs' := (List.of_mem_zip (by simpa using hp2)).2
        have := hc p.2 hsnd
        omega

theorem join_take_append : ∀ (ws : List (List Char)) (k : Nat),
    ∃ rest, joinSpace (ws.take k) ++ rest = joinSpace ws := by
  intro ws
  induction ws with
  | nil =>
    intro k
    exact ⟨[], by simp [joinSpace]⟩
  | cons w t ih =>
    intro k
    cases k with
    | zero => exact ⟨joinSpace (w :: t), by simp [joinSpace]⟩
    | succ k' =>
      cases t with
      | nil => exact ⟨[], by simp [joinSpace]⟩
      | cons y ys =>
        by_cases hk : (y :: ys).take k' = []
        · refine ⟨' ' :: joinSpace (y :: ys), ?_⟩
          rw [List.take_succ_cons, hk]
          rw [show joinSpace [w] = w from rfl,
            joinSpace_cons_of_ne_nil w (y :: ys) (by simp)]
        · obtain ⟨r, hr⟩ := ih k'
          refine ⟨r, ?_⟩
          rw [List.take_succ_cons, joinSpace_cons_of_ne_nil w _ hk,
            joinSpace_cons_of_ne_nil w (y :: ys) (by simp)]
          rw [List.append_assoc]
          simp only [List.cons_append]
          rw [hr]

theorem splitSpace_ne_nil : ∀ x : List Char, splitSpace x ≠ [] := by
  intro x
  cases x with
  | nil => simp [splitSpace]
  | cons c rest =>
    show (match splitSpace rest with
      | [] => [[]]
      | w :: ws => if c = ' ' then [] :: w :: ws else (c :: w) :: ws) ≠ []
    cases splitSpace rest with
    | nil => simp
    | cons w ws => by_cases hc : c = ' ' <;> simp [hc]

theorem joinSpace_splitSpace : ∀ x : List Char, joinSpace (splitSpace x) = x := by
  intro x
  induction x with
  | nil => rfl
  | cons c rest ih =>
    have hne := splitSpace_ne_nil rest
    show joinSpace (match splitSpace rest with
      | [] => [[]]
      | w :: ws => if c = ' ' then [] :: w :: ws else (c :: w) :: ws) = c :: rest
    cases hsp : splitSpace rest with
    | nil => exact absurd hsp hne
    | cons w ws =>
      rw [hsp] at ih
      by_cases hc : c = ' '
      · simp only [if_pos hc]
        rw [joinSpace_cons_of_ne_nil [] (w :: ws) (by simp), hc, ih]
        rfl
      · simp only [if_neg hc]
        cases ws with
        | nil =>
          show c :: w = c :: rest
          rw [show joinSpace [w] = w from rfl] at ih
          rw [ih]
        | cons z zs =>
          rw [joinSpace_cons_of_ne_nil (c :: w) (z :: zs) (by simp)]
          rw [joinSpace_cons_of_ne_nil w (z :: zs) (by simp)] at ih
          rw [← ih]
          rfl

theorem clip_core (n : Int) (hn : 0 ≤ n) (ws : List (List Char)) (hws : ws ≠ []) :
    ∃ k, joinSpace (((ws.zip (wordCums ws)).filter
        (fun p => decide (p.2 < n))).map Prod.fst) = joinSpace (ws.take k) ∧
      ((joinSpace (ws.take k)).length : Int) ≤ n := by
  have hlen_cs : (wordCums ws).length = ws.length := by
    rw [wordCums, adjLens, cumsum_length, decLast_length, decFirst_length, List.length_map]
  have hpair : List.Pairwise (· ≤ ·) (wordCums ws) := by
    cases ws with
    | nil => exact absurd rfl hws
    | cons w1 t1 =>
      cases t1 with
      | nil =>
        have h1 : (wordCums [w1]).length = 1 := by
          rw [wordCums, adjLens, cumsum_length, decLast_length, decFirst_length,
            List.length_map]
          rfl
        obtain ⟨a, ha⟩ := List.length_eq_one.mp h1
        rw [ha]
        exact List.pairwise_singleton _ _
      | cons w2 t2 =>
        rw [wordCums]
        apply (cumsumFrom_pairwise_ge _ ?_ 0).1
        intro a ha
        rw [adjLens] at ha
        rw [show decFirst ((w1 :: w2 :: t2).map (fun w => (w.length : Int) + 1)) =
          ((w1.length : Int) + 1 - 1) :: ((w2.length : Int) + 1) ::
            (t2.map (fun w => (w.length : Int) + 1)) from rfl] at ha
        rw [show decLast (((w1.length : Int) + 1 - 1) :: ((w2.length : Int) + 1) ::
            (t2.map (fun w => (w.length : Int) + 1))) =
          ((w1.length : Int) + 1 - 1) :: decLast (((w2.length : Int) + 1) ::
            (t2.map (fun w => (w.length : Int) + 1))) from rfl] at ha
        rcases List.mem_cons.mp ha with rfl | ha2
        · have := Int.natCast_nonneg w1.length
          omega
        · apply decLast_nonneg _ ?_ _ ha2
          intro b hb
          rcases List.mem_cons.mp hb with rfl | hb2
          · have := Int.natCast_nonneg w2.length
            omega
          · rcases List.mem_map.mp hb2 with ⟨w, _, rfl⟩
            have := Int.natCast_nonneg w.length
            omega
  obtain ⟨k, hk1, hk2, heq, hmem⟩ := filter_zip_take n ws _ hpair
  have hmapfst : ((ws.zip (wordCums ws)).take k).map Prod.fst = ws.take k := by
    rw [List.map_take, List.map_fst_zip ws _ (le_of_eq hlen_cs.symm)]
  refine ⟨k, by rw [heq, hmapfst], ?_⟩
  cases k with
  | zero =>
    rw [show ws.take 0 = [] from rfl, show joinSpace [] = [] from rfl]
    simpa using hn
  | succ k' =>
    have hk' : k' < ws.length := hk1
    have hzlen : k' < ((ws.zip (wordCums ws)).take (k' + 1)).length := by
      rw [List.length_take, List.length_zip, hlen_cs]
      omega
    have hin := hmem _ (List.get_mem _ k' hzlen)
    rw [show ((ws.zip (wordCums ws)).take (k' + 1)).get ⟨k', hzlen⟩ =
        ((ws.zip (wordCums ws)).take (k' + 1))[k'] from rfl,
      List.getElem_take, List.getElem_zip] at hin
    have hin2 : (wordCums ws).getD k' 0 < n := by
      rw [List.getD_eq_getElem _ 0 (by rw [hlen_cs]; exact hk')]
      exact hin
    have hchain : wordCums ws =
        decLast ((cumsum (ws.map (fun w => (w.length : Int) + 1))).map (fun v => v - 1)) := by
      rw [wordCums, adjLens]
      rw [show cumsum (decLast (decFirst (ws.map (fun w => (w.length : Int) + 1)))) =
        cumsumFrom 0 (decLast (decFirst (ws.map (fun w => (w.length : Int) + 1)))) from rfl]
      rw [cumsumFrom_decLast]
      rw [show cumsumFrom 0 (decFirst (ws.map (fun w => (w.length : Int) + 1))) =
        cumsum (decFirst (ws.map (fun w => (w.length : Int) + 1))) from rfl]
      rw [cumsum_decFirst]
    have hub : ((cumsum (ws.map (fun w => (w.length : Int) + 1))).map (fun v => v - 1)).getD
        k' 0 - 1 ≤ (wordCums ws).getD k' 0 := by
      rw [hchain]
      apply decLast_getD_ge
      rw [List.length_map, cumsum_length, List.length_map]
      exact hk'
    have hmapv : ((cumsum (ws.map (fun w => (w.length : Int) + 1))).map (fun v => v - 1)).getD
        k' 0 = (cumsum (ws.map (fun w => (w.length : Int) + 1))).getD k' 0 - 1 := by
      apply getD_map_of_lt
      rw [cumsum_length, List.length_map]
      exact hk'
    have hjoin := cumsum_len_getD ws k' hk'
    rw [hmapv, hjoin] at hub
    omega

example : OneHot [0, 2] (some 3) 0 = .ok [[1, 0, 0], [0, 0, 1]] := rfl
example : OneHot [0, 2] none 0 = .ok [[1, 0, 0], [0, 0, 1]] := rfl
example : centerOff ((10 : Int) - 4) = 3 := by decide
example : CenterCrop [[[1, 2], [3, 4]]] 3 3 = [[[4]]] := rfl
example : Patch [[[1, 2], [3, 4]]] 3 3 (Rng.mk [0, 0]) = .error .invalidInput := rfl

/-- Claim C5 counterexample: `LenClip(["ab"], 2)` returns `"ab"` unchanged,
whose character length is `2`, not strictly less than `n = 2`. -/
theorem lenClip_length_not_strict :
    LenClip [['a', 'b']] 2 = [['a', 'b']] ∧
    ¬((((LenClip [['a', 'b']] 2).headD []).length : Int) < 2) := by decide

/-- Claim C5 (amended): every string returned by `LenClip` is the space-joined
prefix of the corresponding input's words — a prefix of the input cut on a
word boundary — and its total character length is at most `N` (the bound is
not strict: a kept final word may make the length exactly `N`). -/
theorem lenClip_word_boundary (X : List (List Char)) (n : Int) (hn : 0 ≤ n) :
    ∀ xc ∈ LenClip X n, ∃ x ∈ X, ∃ k,
      xc = joinSpace ((splitSpace x).take k) ∧
      (∃ rest, xc ++ rest = x) ∧
      ((xc.length : Int) ≤ n) := by
  intro xc hxc
  rcases List.mem_map.mp hxc with ⟨x, hx, rfl⟩
  obtain ⟨k, hk_eq, hk_len⟩ := clip_core n hn (splitSpace x) (splitSpace_ne_nil x)
  have hxc_eq : lenClipOne n x = joinSpace ((splitSpace x).take k) := hk_eq
  refine ⟨x, hx, k, hxc_eq, ?_, ?_⟩
  · obtain ⟨rest, hrest⟩ := join_take_append (splitSpace x) k
    refine ⟨rest, ?_⟩
    rw [hxc_eq, hrest, joinSpace_splitSpace]
  · rw [hxc_eq]
    exact hk_len

theorem lenClip_word_boundary_witness :
    ((0 : Int) ≤ 3) ∧
    (∀ xc ∈ LenClip [['a', ' ', 'b']] 3, ∃ x ∈ ([['a', ' ', 'b']] : List (List Char)), ∃ k,
      xc = joinSpace ((splitSpace x).take k) ∧
      (∃ rest, xc ++ rest = x) ∧
      ((xc.length : Int) ≤ 3)) :=
  ⟨by decide, lenClip_word_boundary [['a', ' ', 'b']] 3 (by decide)⟩

theorem foldl_max_init_le_int (l : List Int) (a : Int) : a ≤ l.foldl max a := by
  induction l generalizing a with
  | nil => exact Int.le_refl a
  | cons x t ih => exact le_trans (le_max_left a x) (ih (max a x))

theorem le_foldl_max_int (l : List Int) (a x : Int) (hx : x ∈ l) : x ≤ l.foldl max a := by
  induction l generalizing a with
  | nil => cases hx
  | cons y t ih =>
    rcases List.mem_cons.mp hx with h | h
    · subst h
      exact le_trans (le_max_right a x) (foldl_max_init_le_int t (max a x))
    · exact ih (max a y) h

theorem le_listMaxInt (X : List Int) (x : Int) (hx : x ∈ X) : x ≤ listMaxInt X := by
  cases X with
  | nil => cases hx
  | cons h t =>
    rcases List.mem_cons.mp hx with rfl | hmem
    · exact foldl_max_init_le_int t x
    · exact le_foldl_max_int t h x hmem

theorem listMaxInt_nonneg (X : List Int) (hne : X ≠ []) (hnn : ∀ x ∈ X, 0 ≤ x) :
    0 ≤ listMaxInt X := by
  cases X with
  | nil => exact absurd rfl hne
  | cons h t =>
    exact le_trans (hnn h (List.mem_cons_self h t)) (foldl_max_init_le_int t h)

theorem getD_map_lt {α β : Type} (g : α → β) (l : List α) (i : Nat) (h : i < l.length)
    (d : β) (e : α) : (l.map g).getD i d = g (l.getD i e) := by
  rw [List.getD_eq_getElem _ d (by simpa using h), List.getD_eq_getElem _ e h,
    List.getElem_map]

theorem range_getD (n j : Nat) (h : j < n) : (List.range n).getD j 0 = j := by
  rw [List.getD_eq_getElem _ 0 (by simpa using h), List.getElem_range]

/-- Claim C6: `OneHot` with the class count left unspecified uses
`max(X) + 1` classes, producing a `len(X) × (max(X)+1)` matrix with a `1` at
each sample's index and the negative-class fill elsewhere; in particular
`OneHot([0,2], n=3)` is `[[1,0,0],[0,0,1]]`. -/
theorem oneHot_default_classes (X : List Int) ( negClass : ℚ)
    (hne : X ≠ []) (hnn : ∀ x ∈ X, 0 ≤ x) :
    ∃ rows, OneHot X none negClass = .ok rows ∧
      rows.length = X.length ∧
      (∀ r ∈ rows, r.length = (listMaxInt X + 1).toNat) ∧
      (∀ i, ∀ hi : i < X.length, ∀ j, j < (listMaxInt X + 1).toNat →
        (rows.getD i []).getD j 0 =
          if X.get ⟨i, hi⟩ = (j : Int) then 1 else negClass) ∧
      OneHot [0, 2] (some 3) 0 = .ok [[1, 0, 0], [0, 0, 1]] := by
  have hmax0 : 0 ≤ listMaxInt X := listMaxInt_nonneg X hne hnn
  have hnv : ¬(listMaxInt X + 1 < 0) := by omega
  have hall : X.all (fun x =>
      decide (-(listMaxInt X + 1) ≤ x) && decide (x < listMaxInt X + 1)) = true := by
    apply List.all_eq_true.mpr
    intro x hx
    have h0 := hnn x hx
    have hle := le_listMaxInt X x hx
    simp only [Bool.and_eq_true, decide_eq_true_eq]
    omega
  have hok : OneHot X none negClass = .ok (X.map (fun x =>
      (List.range (listMaxInt X + 1).toNat).map
        (fun (j : Nat) => if pyWrapIdx (listMaxInt X + 1) x = (j : Int) then 1
          else negClass))) := by
    cases X with
    | nil => exact absurd rfl hne
    | cons h t =>
      show (if listMaxInt (h :: t) + 1 < 0 then Except.error FoxError.invalidInput
        else if (h :: t).all (fun x =>
          decide (-(listMaxInt (h :: t) + 1) ≤ x) && decide (x < listMaxInt (h :: t) + 1)) then
          _ else Except.error FoxError.invalidInput) = _
      rw [if_neg hnv, if_pos hall]
  refine ⟨_, hok, by simp, ?_, ?_, rfl⟩
  · intro r hr
    rcases List.mem_map.mp hr with ⟨x, _, rfl⟩
    simp
  · intro i hi j hj
    have hrow : ((X.map (fun x =>
        (List.range (listMaxInt X + 1).toNat).map
          (fun (j : Nat) => if pyWrapIdx (listMaxInt X + 1) x = (j : Int) then 1
            else negClass))).getD i []) =
        (List.range (listMaxInt X + 1).toNat).map
          (fun (j : Nat) => if pyWrapIdx (listMaxInt X + 1) (X.getD i 0) = (j : Int) then 1
            else negClass) := by
      exact getD_map_lt _ X i hi [] 0
    rw [hrow, getD_map_lt _ _ j (by simpa using hj) (0 : ℚ) 0, range_getD _ j hj]
    have hwrap : pyWrapIdx (listMaxInt X + 1) (X.getD i 0) = X.getD i 0 := by
      have h0 : 0 ≤ X.getD i 0 := by
        rw [List.getD_eq_getElem _ 0 hi]
        exact hnn _ (List.getElem_mem hi)
      rw [pyWrapIdx, if_neg (by omega)]
    rw [hwrap, List.getD_eq_getElem _ 0 hi]
    rfl

theorem oneHot_default_classes_witness :
    ([0, 2] : List Int) ≠ [] ∧ (∀ x ∈ ([0, 2] : List Int), 0 ≤ x) ∧
    (∃ rows, OneHot [0, 2] none 0 = .ok rows ∧
      rows.length = ([0, 2] : List Int).length ∧
      (∀ r ∈ rows, r.length = (listMaxInt [0, 2] + 1).toNat) ∧
      (∀ i, ∀ hi : i < ([0, 2] : List Int).length, ∀ j, j < (listMaxInt [0, 2] + 1).toNat →
        (rows.getD i []).getD j 0 =
          if ([0, 2] : List Int).get ⟨i, hi⟩ = (j : Int) then 1 else (0 : ℚ)) ∧
      OneHot [0, 2] (some 3) 0 = .ok [[1, 0, 0], [0, 0, 1]]) :=
  ⟨by decide, by decide, oneHot_default_classes [0, 2] 0 (by decide) (by decide)⟩

/-- Claim C7: `Standardize` computes `x / 127.5 - 1` elementwise; every pixel
value in `[0, 255]` lands in `[-1, 1]`, and the inverse scaling
`(y + 1) * 127.5` recovers the input exactly over the rationals. -/
theorem standardize_range_inverse (X : List ℚ) (hX : ∀ x ∈ X, 0 ≤ x ∧ x ≤ 255) :
    (∀ y ∈ Standardize X, -1 ≤ y ∧ y ≤ 1) ∧
    (Standardize X).map (fun y => (y + 1) * 127.5) = X := by
  constructor
  · intro y hy
    rcases List.mem_map.mp hy with ⟨x, hx, rfl⟩
    obtain ⟨h0, h255⟩ := hX x hx
    have hpos : (0 : ℚ) < 127.5 := by norm_num
    constructor
    · have hdiv : (0 : ℚ) ≤ x / 127.5 := div_nonneg h0 (le_of_lt hpos)
      linarith
    · have hdiv : x / 127.5 ≤ 2 := by
        rw [div_le_iff hpos]
        linarith
      linarith
  · rw [Standardize, List.map_map]
    have hcomp : ((fun y => (y + 1) * 127.5) ∘ fun x : ℚ => x / 127.5 - 1) =
        fun x : ℚ => x := by
      funext x
      simp only [Function.comp_apply]
      have h1 : x / 127.5 - 1 + 1 = x / 127.5 := by ring
      rw [h1, div_mul_cancel₀ x (by norm_num : (127.5 : ℚ) ≠ 0)]
    rw [hcomp]
    exact List.map_id' X

theorem standardize_range_inverse_witness :
    (∀ x ∈ ([0, 255, 51] : List ℚ), 0 ≤ x ∧ x ≤ 255) ∧
    ((∀ y ∈ Standardize [0, 255, 51], -1 ≤ y ∧ y ≤ 1) ∧
      (Standardize [0, 255, 51]).map (fun y => (y + 1) * 127.5) = [0, 255, 51]) :=
  ⟨by decide, standardize_range_inverse [0, 255, 51] (by decide)⟩

theorem length_le_strMaxLen (X : List (List Char)) (x : List Char) (hx : x ∈ X) :
    x.length ≤ strMaxLen X :=
  le_foldl_max _ 0 _ (List.mem_map_of_mem List.length hx)

theorem strMaxLen_attained (X : List (List Char)) (h : X ≠ []) :
    ∃ x ∈ X, x.length = strMaxLen X := by
  rcases foldl_max_attained (X.map List.length) 0 with h0 | hmem
  · cases X with
    | nil => exact absurd rfl h
    | cons s t =>
      have hle : s.length ≤ strMaxLen (s :: t) :=
        length_le_strMaxLen _ _ (List.mem_cons_self s t)
      have hge : strMaxLen (s :: t) ≤ s.length := by
        rw [strMaxLen, h0]; exact Nat.zero_le _
      exact ⟨s, List.mem_cons_self s t, Nat.le_antisymm hle hge⟩
  · rcases List.mem_map.mp hmem with ⟨s, hs, hlen⟩
    exact ⟨s, hs, hlen⟩

theorem one_hot_length (xs : List Int) (n : Nat) : (one_hot xs n).length = xs.length := by
  simp [one_hot]

theorem one_hot_row_length (xs : List Int) (n : Nat) :
    ∀ r ∈ one_hot xs n, r.length = n := by
  intro r hr
  simp only [one_hot, List.mem_map] at hr
  rcases hr with ⟨x, _, rfl⟩
  simp

theorem zerosRows_length (r c : Nat) : (zerosRows r c).length = r := by
  simp [zerosRows]

theorem zerosRows_all_zero (r c : Nat) :
    ∀ row ∈ zerosRows r c, row.length = c ∧ ∀ q ∈ row, q = 0 := by
  intro row hrow
  have h := List.eq_of_mem_replicate hrow
  subst h
  exact ⟨by simp, fun q hq => List.eq_of_mem_replicate hq⟩

/-- Claim C9: for every non-empty list of strings and character-to-id table,
`StringToCharacterCNNRNNRep` returns a 4-D one-hot array in which each
string shorter than the batch maximum is padded with all-zero rows at the
front, the maximum length being derived from the input data itself. -/
theorem stringToCharCNNRNNRep_pads_front (X : List (List Char))
    (encoder : List (Char × Int)) (hne : X ≠ []) :
    ∃ out, StringToCharacterCNNRNNRep X encoder = .ok out ∧
      out.length = X.length ∧
      (∀ x ∈ X, x.length ≤ strMaxLen X) ∧
      (∃ x ∈ X, x.length = strMaxLen X) ∧
      (∀ i, ∀ hi : i < X.length, ∃ m,
        out.getD i [] = [m] ∧
        m.length = strMaxLen X ∧
        (∀ row ∈ m, row.length = encoder.length + 1) ∧
        m.take (strMaxLen X - (X.get ⟨i, hi⟩).length) =
          zerosRows (strMaxLen X - (X.get ⟨i, hi⟩).length) (encoder.length + 1) ∧
        (∀ row ∈ m.take (strMaxLen X - (X.get ⟨i, hi⟩).length), ∀ q ∈ row, q = 0) ∧
        m.drop (strMaxLen X - (X.get ⟨i, hi⟩).length) =
          one_hot ((X.get ⟨i, hi⟩).map (encGet encoder)) (encoder.length + 1)) := by
  have hok : StringToCharacterCNNRNNRep X encoder = .ok (X.map (fun x =>
      [zerosRows (strMaxLen X - x.length) (encoder.length + 1) ++
        one_hot (x.map (encGet encoder)) (encoder.length + 1)])) := by
    cases X with
    | nil => exact absurd rfl hne
    | cons h t => rfl
  refine ⟨_, hok, by simp, fun x hx => length_le_strMaxLen X x hx,
    strMaxLen_attained X hne, ?_⟩
  intro i hi
  have hstep : ((X.map (fun x =>
      [zerosRows (strMaxLen X - x.length) (encoder.length + 1) ++
        one_hot (x.map (encGet encoder)) (encoder.length + 1)])).getD i []) =
      [zerosRows (strMaxLen X - (X.getD i []).length) (encoder.length + 1) ++
        one_hot ((X.getD i []).map (encGet encoder)) (encoder.length + 1)] :=
    getD_map_lt _ X i hi [] []
  have hgetD : X.getD i [] = X.get ⟨i, hi⟩ := List.getD_eq_getElem X [] hi
  rw [hgetD] at hstep
  have hzlen : (zerosRows (strMaxLen X - (X.get ⟨i, hi⟩).length)
      (encoder.length + 1)).length = strMaxLen X - (X.get ⟨i, hi⟩).length :=
    zerosRows_length _ _
  refine ⟨zerosRows (strMaxLen X - (X.get ⟨i, hi⟩).length) (encoder.length + 1) ++
    one_hot ((X.get ⟨i, hi⟩).map (encGet encoder)) (encoder.length + 1),
    hstep, ?_, ?_, ?_, ?_, ?_⟩
  · rw [List.length_append, hzlen, one_hot_length, List.length_map]
    exact Nat.sub_add_cancel (length_le_strMaxLen X _ (List.get_mem X i hi))
  · intro row hrow
    rcases List.mem_append.mp hrow with hmem | hmem
    · exact (zerosRows_all_zero _ _ row hmem).1
    · exact one_hot_row_length _ _ row hmem
  · exact List.take_left' hzlen
  · intro row hrow q hq
    rw [List.take_left' hzlen] at hrow
    exact (zerosRows_all_zero _ _ row hrow).2 q hq
  · exact List.drop_left' hzlen

theorem stringToCharCNNRNNRep_pads_front_witness :
    ([['a'], ['b', 'c']] : List (List Char)) ≠ [] ∧
    (∃ out, StringToCharacterCNNRNNRep [['a'], ['b', 'c']] [('a', 1), ('b', 2)] = .ok out ∧
      out.length = ([['a'], ['b', 'c']] : List (List Char)).length ∧
      (∀ x ∈ ([['a'], ['b', 'c']] : List (List Char)),
        x.length ≤ strMaxLen [['a'], ['b', 'c']]) ∧
      (∃ x ∈ ([['a'], ['b', 'c']] : List (List Char)),
        x.length = strMaxLen [['a'], ['b', 'c']]) ∧
      (∀ i, ∀ hi : i < ([['a'], ['b', 'c']] : List (List Char)).length, ∃ m,
        out.getD i [] = [m] ∧
        m.length = strMaxLen [['a'], ['b', 'c']] ∧
        (∀ row ∈ m, row.length = ([('a', 1), ('b', 2)] : List (Char × Int)).length + 1) ∧
        m.take (strMaxLen [['a'], ['b', 'c']] -
            (([['a'], ['b', 'c']] : List (List Char)).get ⟨i, hi⟩).length) =
          zerosRows (strMaxLen [['a'], ['b', 'c']] -
            (([['a'], ['b', 'c']] : List (List Char)).get ⟨i, hi⟩).length)
            (([('a', 1), ('b', 2)] : List (Char × Int)).length + 1) ∧
        (∀ row ∈ m.take (strMaxLen [['a'], ['b', 'c']] -
            (([['a'], ['b', 'c']] : List (List Char)).get ⟨i, hi⟩).length),
          ∀ q ∈ row, q = 0) ∧
        m.drop (strMaxLen [['a'], ['b', 'c']] -
            (([['a'], ['b', 'c']] : List (List Char)).get ⟨i, hi⟩).length) =
          one_hot ((([['a'], ['b', 'c']] : List (List Char)).get ⟨i, hi⟩).map
            (encGet [('a', 1), ('b', 2)]))
            (([('a', 1), ('b', 2)] : List (Char × Int)).length + 1))) :=
  ⟨by decide, stringToCharCNNRNNRep_pads_front [['a'], ['b', 'c']] [('a', 1), ('b', 2)]
    (by decide)⟩

/-- Claim C8 counterexample: `CenterCrop` on a 2×2 image with a 3×3 crop does
not fail with any error — it returns a clipped 1×1 crop (Python slicing with
the negative centre offset wraps and clamps instead of raising). -/
theorem centerCrop_oversized_no_error :
    CenterCrop [[[1, 2], [3, 4]]] 3 3 = [[[4]]] := rfl

/-- Claim C8 (amended): `Patch` with a crop wider or taller than the image
fails immediately with `InvalidInputError` (the empty `randint` range), but
`CenterCrop` performs no validation: it always returns one (possibly
clipped) crop per input image, never an error. -/
theorem patch_oversized_invalid (x : List (List Int)) (rest : List (List (List Int)))
    (pw ph : Int) (g : Rng)
    (h : ((x.length : Int) < pw) ∨
      ((pw ≤ (x.length : Int)) ∧ (((x.headD []).length : Int) < ph))) :
    Patch (x :: rest) pw ph g = .error .invalidInput ∧
    ∀ (X : List (List (List Int))) (pw2 ph2 : Int),
      (CenterCrop X pw2 ph2).length = X.length := by
  constructor
  · rcases h with h1 | ⟨h2a, h2b⟩
    · have hlt : (x.length : Int) - pw < 0 := by omega
      show patchLoop pw ph (x :: rest) g = .error .invalidInput
      simp only [patchLoop, randint, if_pos hlt]
    · have hge : ¬((x.length : Int) - pw < 0) := by omega
      have hlt : ((x.headD []).length : Int) - ph < 0 := by omega
      show patchLoop pw ph (x :: rest) g = .error .invalidInput
      simp only [patchLoop, randint, if_neg hge, if_pos hlt]
  · intro X pw2 ph2
    simp [CenterCrop]

theorem patch_oversized_invalid_witness :
    (((([[1, 2], [3, 4]] : List (List Int)).length : Int) < 3) ∨
      ((3 ≤ (([[1, 2], [3, 4]] : List (List Int)).length : Int)) ∧
        (((([[1, 2], [3, 4]] : List (List Int)).headD []).length : Int) < 3))) ∧
    (Patch [[[1, 2], [3, 4]]] 3 3 (Rng.mk []) = .error .invalidInput ∧
      ∀ (X : List (List (List Int))) (pw2 ph2 : Int),
        (CenterCrop X pw2 ph2).length = X.length) :=
  ⟨Or.inl (by decide),
    patch_oversized_invalid [[1, 2], [3, 4]] [] 3 3 (Rng.mk []) (Or.inl (by decide))⟩

theorem pySlice_length {α : Type} (l : List α) (a b : Int) (h0 : 0 ≤ a) (hab : a ≤ b)
    (hb : b ≤ (l.length : Int)) : (pySlice l a b).length = (b - a).toNat := by
  unfold pySlice pyIdx
  rw [if_neg (by omega), if_neg (by omega), List.length_drop, List.length_take]
  omega

theorem pySlice_mem {α : Type} (l : List α) (a b : Int) :
    ∀ y ∈ pySlice l a b, y ∈ l := by
  intro y hy
  unfold pySlice at hy
  exact List.mem_of_mem_take (List.mem_of_mem_drop hy)

theorem randint_ok (a b : Int) (g : Rng) (hab : a ≤ b) :
    ∃ c g', randint a b g = .ok (c, g') ∧ a ≤ c ∧ c ≤ b := by
  refine ⟨a + ((g.vals.headD 0 : Nat) : Int) % (b - a + 1), Rng.mk g.vals.tail, ?_, ?_, ?_⟩
  · rw [randint, if_neg (by omega)]
  · have h1 : 0 ≤ ((g.vals.headD 0 : Nat) : Int) % (b - a + 1) :=
      Int.emod_nonneg _ (by omega)
    omega
  · have h2 : ((g.vals.headD 0 : Nat) : Int) % (b - a + 1) < b - a + 1 :=
      Int.emod_lt_of_pos _ (by omega)
    omega

/-- Claim C10 counterexample: on a 4×4 image with `pw = 3`, changing `ph`
from 2 to 1 changes the crop's second dimension from 3 columns to 2 (the
`ph`-derived centre offset pushes the `pw`-wide slice past the image edge
and it is clamped), so with `pw ≠ ph` the `ph` argument does affect the
crop extent. -/
theorem centerCrop_ph_affects_extent :
    (CenterCrop [[[1, 2, 3, 4], [5, 6, 7, 8], [9, 10, 11, 12], [13, 14, 15, 16]]] 3 2).map
      (fun m => m.map List.length) = [[3, 3, 3]] ∧
    (CenterCrop [[[1, 2, 3, 4], [5, 6, 7, 8], [9, 10, 11, 12], [13, 14, 15, 16]]] 3 1).map
      (fun m => m.map List.length) = [[2, 2, 2]] := by decide

/-- Claim C10 (amended): both `Patch` and `CenterCrop` slice the second image
axis with `pw` rather than `ph` (`x[i:i+pw, j:j+pw]`); whenever the
`pw`-wide slice starting at the `ph`-derived column offset fits inside the
image (for `Patch`: whenever `pw ≤ ph ≤ h` and `pw ≤ w`, so that every
possible random offset fits), the returned crop's second dimension equals
`pw` — not `ph` — and `ph` does not affect the crop extent. -/
theorem patch_centerCrop_second_axis_pw (x : List (List Int)) (pw ph : Int)
    (hrect : ∀ r ∈ x, r.length = (x.headD []).length)
    (hpw0 : 0 ≤ pw)
    (hi0 : 0 ≤ centerOff ((x.length : Int) - pw))
    (hiw : centerOff ((x.length : Int) - pw) + pw ≤ (x.length : Int))
    (hj0 : 0 ≤ centerOff (((x.headD []).length : Int) - ph))
    (hjh : centerOff (((x.headD []).length : Int) - ph) + pw ≤
      ((x.headD []).length : Int)) :
    (∃ crop, CenterCrop [x] pw ph = [crop] ∧
      crop.length = pw.toNat ∧ ∀ row ∈ crop, row.length = pw.toNat) ∧
    (∀ g : Rng, pw ≤ ph → ph ≤ ((x.headD []).length : Int) → pw ≤ (x.length : Int) →
      ∃ i j g', Patch [x] pw ph g = .ok ([pySlice2 x i (i + pw) j (j + pw)], g') ∧
        (pySlice2 x i (i + pw) j (j + pw)).length = pw.toNat ∧
        ∀ row ∈ pySlice2 x i (i + pw) j (j + pw), row.length = pw.toNat) := by
  constructor
  · refine ⟨pySlice2 x (centerOff ((x.length : Int) - pw))
      (centerOff ((x.length : Int) - pw) + pw)
      (centerOff (((x.headD []).length : Int) - ph))
      (centerOff (((x.headD []).length : Int) - ph) + pw), rfl, ?_, ?_⟩
    · rw [pySlice2, List.length_map,
        pySlice_length x _ _ hi0 (by omega) hiw]
      omega
    · intro row hrow
      rw [pySlice2] at hrow
      rcases List.mem_map.mp hrow with ⟨r, hr, rfl⟩
      have hrlen := hrect r (pySlice_mem x _ _ r hr)
      rw [pySlice_length r _ _ hj0 (by omega) (by omega)]
      omega
  · intro g hpwph hphh hpww
    obtain ⟨i, g1, hri, hi0', hiw'⟩ := randint_ok 0 ((x.length : Int) - pw) g (by omega)
    obtain ⟨j, g2, hrj, hj0', hjh'⟩ :=
      randint_ok 0 (((x.headD []).length : Int) - ph) g1 (by omega)
    refine ⟨i, j, g2, ?_, ?_, ?_⟩
    · show patchLoop pw ph [x] g = _
      simp only [patchLoop, hri, hrj]
    · rw [pySlice2, List.length_map, pySlice_length x _ _ hi0' (by omega) (by omega)]
      omega
    · intro row hrow
      rw [pySlice2] at hrow
      rcases List.mem_map.mp hrow with ⟨r, hr, rfl⟩
      have hrlen := hrect r (pySlice_mem x _ _ r hr)
      rw [pySlice_length r _ _ hj0' (by omega) (by omega)]
      omega

theorem patch_centerCrop_second_axis_pw_witness :
    (∀ r ∈ ([[1, 2, 3, 4], [5, 6, 7, 8], [9, 10, 11, 12], [13, 14, 15, 16]] :
        List (List Int)),
      r.length = (([[1, 2, 3, 4], [5, 6, 7, 8], [9, 10, 11, 12], [13, 14, 15, 16]] :
        List (List Int)).headD []).length) ∧
    ((∃ crop, CenterCrop [[[1, 2, 3, 4], [5, 6, 7, 8], [9, 10, 11, 12], [13, 14, 15, 16]]]
        2 3 = [crop] ∧
      crop.length = (2 : Int).toNat ∧ ∀ row ∈ crop, row.length = (2 : Int).toNat) ∧
    (∀ g : Rng, (2 : Int) ≤ 3 →
      (3 : Int) ≤ ((([[1, 2, 3, 4], [5, 6, 7, 8], [9, 10, 11, 12], [13, 14, 15, 16]] :
        List (List Int)).headD []).length : Int) →
      (2 : Int) ≤ (([[1, 2, 3, 4], [5, 6, 7, 8], [9, 10, 11, 12], [13, 14, 15, 16]] :
        List (List Int)).length : Int) →
      ∃ i j g', Patch [[[1, 2, 3, 4], [5, 6, 7, 8], [9, 10, 11, 12], [13, 14, 15, 16]]]
          2 3 g =
        .ok ([pySlice2 [[1, 2, 3, 4], [5, 6, 7, 8], [9, 10, 11, 12], [13, 14, 15, 16]]
          i (i + 2) j (j + 2)], g') ∧
        (pySlice2 [[1, 2, 3, 4], [5, 6, 7, 8], [9, 10, 11, 12], [13, 14, 15, 16]]
          i (i + 2) j (j + 2)).length = (2 : Int).toNat ∧
        ∀ row ∈ pySlice2 [[1, 2, 3, 4], [5, 6, 7, 8], [9, 10, 11, 12], [13, 14, 15, 16]]
          i (i + 2) j (j + 2), row.length = (2 : Int).toNat)) :=
  ⟨by decide, patch_centerCrop_second_axis_pw
    [[1, 2, 3, 4], [5, 6, 7, 8], [9, 10, 11, 12], [13, 14, 15, 16]] 2 3
    (by decide) (by decide) (by decide) (by decide) (by decide) (by decide)⟩
